import Mathlib

/- Formal model of the forced-capture chess search core.

   Shallow embedding of the repository's Python sources:
   - `op code/search.py`   : ChessSearcher.order_moves, quiescence_search,
                             alpha_beta, iterative_deepening
   - `op code/evaluate.py` : evaluate (terminal branches explicit; the
                             non-terminal component sum is abstracted, see
                             `NodeData.heuristic`)
   - `op code/forced_capture.py` : get_legal_moves_with_forced_capture
   - `op code/transposition_table.py` : TranspositionTable.probe / store
   - `forced_chess.py`     : forced_legal_moves
   - `search.py`           : minimax (classical alpha-beta minimax with a
                             string-flagged transposition table)
   - `transposition.py`    : Transposition_Table.store / lookup

   The external `python-chess` board (an out-of-scope collaborator in the
   spec) is abstracted as a finitely-branching game tree: each node carries
   the boolean answers the search code asks of the board (is_checkmate,
   is_stalemate, is_insufficient_material, can_claim_draw, is_check, turn)
   together with the value of the non-terminal part of `evaluate`, and its
   children are the move list returned by the Move Source
   (`get_legal_moves_with_forced_capture`), each edge carrying the per-move
   data the search inspects (identity, is_capture, victim/attacker values
   used for MVV-LVA, promotion flag).  `board.push(move)` followed by
   `board.is_check()` observes the child node's `isCheck` field.

   `should_stop` is a pure function of the stop flag when no time limit is
   set (the wall clock is not modelled); it is threaded as the constant
   boolean `stop`.  Statistics counters that never influence control flow
   (nodes_searched, cutoff counts) are omitted; the transposition-table
   counters are kept because they live in the modelled object. -/

/- Answers the search asks of a board position, plus the abstracted
   non-terminal evaluation total.  `turn = true` means White to move
   (`chess.WHITE` is `True`).  `heuristic` stands for the weighted component
   sum of `evaluate` (material + positional // 10 + exposure + king safety +
   tactical // 5, evaluate.py lines 437-453): a pure function of the
   external board state, White-positive by the Evaluator's documented
   convention. -/
structure NodeData where
  isCheckmate : Bool
  isStalemate : Bool
  isInsufficientMaterial : Bool
  canClaimDraw : Bool
  isCheck : Bool
  turn : Bool
  heuristic : Int
deriving DecidableEq

/- Per-move data inspected by the search: an opaque move identity, whether
   the move captures, the resolved MVV-LVA victim and attacker values
   (PIECE_VALUES lookups, with the en-passant pawn case already resolved),
   and whether the move promotes. -/
structure EdgeData where
  move : Nat
  is_capture : Bool
  victimValue : Int
  attackerValue : Int
  promotion : Bool
deriving DecidableEq

/- A game position as the search observes it: node data plus the move list
   the Move Source returns for it (already filtered by the compulsory
   capture rule), with the subtree reached by each move. -/
inductive GameTree where
  | node : NodeData → List (EdgeData × GameTree) → GameTree

def GameTree.data : GameTree → NodeData
  | .node d _ => d

def GameTree.children : GameTree → List (EdgeData × GameTree)
  | .node _ cs => cs

/- The move tokens offered at the root, i.e. the Move Source's legal-move
   set for the root position. -/
def rootMoves (t : GameTree) : List Nat :=
  t.children.map (fun x => x.1.move)

/- evaluate (evaluate.py lines 398-455).  The terminal branches are
   translated literally; the final weighted sum over the board is the
   abstracted `heuristic` field.  The function is documented White-positive:
   checkmate with White to move returns -30000, with Black to move +30000. -/
def evaluate (d : NodeData) : Int :=
  if d.isCheckmate then (if d.turn then -30000 else 30000)
  else if d.isStalemate || d.isInsufficientMaterial then 0
  else if d.canClaimDraw then 0
  else d.heuristic

/- move_score inside ChessSearcher.order_moves (search.py lines 125-160).
   `board.push(move); board.is_check(); board.pop()` is the child's
   `isCheck`.  Python's `//` is floor division, hence `Int.fdiv`. -/
def moveScore (pv_move : Option Nat) (x : EdgeData × GameTree) : Int :=
  match pv_move with
  | some p =>
    if x.1.move = p then 1000000
    else
      (if x.1.is_capture then 10000 + x.1.victimValue - x.1.attackerValue.fdiv 10 else 0)
      + (if x.2.data.isCheck then 5000 else 0)
      + (if x.1.promotion then 8000 else 0)
  | none =>
      (if x.1.is_capture then 10000 + x.1.victimValue - x.1.attackerValue.fdiv 10 else 0)
      + (if x.2.data.isCheck then 5000 else 0)
      + (if x.1.promotion then 8000 else 0)

/- ChessSearcher.order_moves (search.py lines 101-162):
   `sorted(moves, key=move_score, reverse=True)` is a stable sort,
   descending by `move_score`; a stable insertion sort with the reversed
   comparison computes the same list. -/
def order_moves (moves : List (EdgeData × GameTree)) (pv_move : Option Nat) :
    List (EdgeData × GameTree) :=
  List.insertionSort (fun x y => moveScore pv_move y ≤ moveScore pv_move x) moves

theorem sizeOf_filter_le {α : Type} [SizeOf α] (p : α → Bool) (l : List α) :
    sizeOf (l.filter p) ≤ sizeOf l := by
  induction l with
  | nil => simp
  | cons x t ih =>
    simp only [List.filter_cons]
    by_cases h : p x
    · simp only [h, if_true]
      simp only [List.cons.sizeOf_spec]
      omega
    · simp only [h]
      simp only [Bool.false_eq_true, if_false, List.cons.sizeOf_spec]
      omega

theorem perm_sizeOf_eq {α : Type} [SizeOf α] {l₁ l₂ : List α} (h : List.Perm l₁ l₂) :
    sizeOf l₁ = sizeOf l₂ := by
  induction h with
  | nil => rfl
  | cons x _ ih => simp only [List.cons.sizeOf_spec]; omega
  | swap x y l => simp only [List.cons.sizeOf_spec]; omega
  | trans _ _ ih₁ ih₂ => omega

theorem sizeOf_order_moves (moves : List (EdgeData × GameTree)) (pv_move : Option Nat) :
    sizeOf (order_moves moves pv_move) = sizeOf moves :=
  perm_sizeOf_eq (List.perm_insertionSort _ moves)

/- The tactical filter used by quiescence_search (search.py lines 214-225):
   captures, plus non-captures that give check. -/
def tacticalFilter (moves : List (EdgeData × GameTree)) : List (EdgeData × GameTree) :=
  moves.filter (fun x => x.1.is_capture || x.2.data.isCheck)

theorem sizeOf_tacticalFilter_le (moves : List (EdgeData × GameTree)) :
    sizeOf (tacticalFilter moves) ≤ sizeOf moves :=
  sizeOf_filter_le _ moves

theorem sizeOf_snd_lt_cons (x : EdgeData × GameTree) (l : List (EdgeData × GameTree)) :
    sizeOf x.2 < sizeOf (x :: l) := by
  obtain ⟨e, c⟩ := x
  simp only [List.cons.sizeOf_spec, Prod.mk.sizeOf_spec]
  omega

theorem sizeOf_tail_lt_cons {α : Type} [SizeOf α] (x : α) (l : List α) :
    sizeOf l < sizeOf (x :: l) := by
  simp only [List.cons.sizeOf_spec]
  omega

theorem sizeOf_snd_lt_pair (x : EdgeData × GameTree) : sizeOf x.2 < sizeOf x := by
  obtain ⟨e, c⟩ := x
  simp only [Prod.mk.sizeOf_spec]
  omega

mutual
/- ChessSearcher.quiescence_search (search.py lines 164-245).  The node's
   `get_legal_moves_with_forced_capture(board)` result is the tree's child
   list.  The Python loop over ordered tactical moves is `qsearchLoop`. -/
def quiescence_search (t : GameTree) (alpha beta depth_left : Int) (stop : Bool) : Int :=
  match t with
  | .node d cs =>
    if stop then 0
    else
      let stand_pat := evaluate d
      if beta ≤ stand_pat then beta
      else
        let alpha1 := if alpha < stand_pat then stand_pat else alpha
        if depth_left < -10 then stand_pat
        else
          let tactical_moves := tacticalFilter cs
          if tactical_moves.isEmpty then stand_pat
          else qsearchLoop (order_moves tactical_moves none) alpha1 beta depth_left stop
termination_by sizeOf t
decreasing_by
  rw [sizeOf_order_moves]
  exact lt_of_le_of_lt (sizeOf_tacticalFilter_le _)
    (by simp only [GameTree.node.sizeOf_spec]; omega)

def qsearchLoop (l : List (EdgeData × GameTree)) (alpha beta depth_left : Int)
    (stop : Bool) : Int :=
  match l with
  | [] => alpha
  | x :: rest =>
    let score := -(quiescence_search x.2 (-beta) (-alpha) (depth_left - 1) stop)
    if beta ≤ score then beta
    else if alpha < score then qsearchLoop rest score beta depth_left stop
    else qsearchLoop rest alpha beta depth_left stop
termination_by sizeOf l
decreasing_by
  · exact sizeOf_snd_lt_cons _ _
  · exact sizeOf_tail_lt_cons _ _
  · exact sizeOf_tail_lt_cons _ _
end

mutual
/- ChessSearcher.alpha_beta (search.py lines 247-330).  Negamax with
   alpha-beta pruning; returns `(score, best_move)`.  The per-move loop
   (lines 307-328) is `abLoop`; a beta cutoff returns `beta` and the end of
   the loop returns the final `alpha` (fail-hard). -/
def alpha_beta (t : GameTree) (depth alpha beta : Int) (pv_move : Option Nat)
    (stop : Bool) : Int × Option Nat :=
  match t with
  | .node d cs =>
    if stop then (0, none)
    else if d.isCheckmate then (-30000 + (100 - depth), none)
    else if d.isStalemate || d.isInsufficientMaterial || d.canClaimDraw then (0, none)
    else if depth ≤ 0 then (quiescence_search t alpha beta 0 stop, none)
    else if cs.isEmpty then
      if d.isCheck then (-30000 + (100 - depth), none) else (0, none)
    else
      abLoop (order_moves cs pv_move) depth alpha beta none (-999999) stop
termination_by sizeOf t
decreasing_by
  rw [sizeOf_order_moves]
  simp only [GameTree.node.sizeOf_spec]
  omega

def abLoop (l : List (EdgeData × GameTree)) (depth alpha beta : Int)
    (best_move : Option Nat) (best_score : Int) (stop : Bool) : Int × Option Nat :=
  match l with
  | [] => (alpha, best_move)
  | x :: rest =>
    let score := -(alpha_beta x.2 (depth - 1) (-beta) (-alpha) none stop).1
    let bm := if best_score < score then some x.1.move else best_move
    let bs := if best_score < score then score else best_score
    if beta ≤ score then (beta, bm)
    else if alpha < score then abLoop rest depth score beta bm bs stop
    else abLoop rest depth alpha beta bm bs stop
termination_by sizeOf l
decreasing_by
  · exact sizeOf_snd_lt_cons _ _
  · exact sizeOf_tail_lt_cons _ _
  · exact sizeOf_tail_lt_cons _ _
end

/- The search window chosen by ChessSearcher.iterative_deepening for each
   depth iteration (search.py lines 373-374): the fixed maximal window,
   regardless of the depth or of any previous best move. -/
def chooseWindow (depth : Nat) (best_move : Option Nat) : Int × Int :=
  (-999999, 999999)

/- SearchResult, restricted to the fields the model can express (node
   counts and wall-clock time are not modelled). -/
structure SearchResultM where
  best_move : Option Nat
  score : Int
  depth : Nat
  pv : List Nat
deriving DecidableEq

/- The `for depth in range(1, max_depth + 1)` loop of
   ChessSearcher.iterative_deepening (search.py lines 368-397).
   `remaining` counts the depths left in the range; `depth` is the loop
   variable.  An iteration adopts the returned move and score when the
   search was not interrupted and returned a move, then stops deepening
   once a mate-range score (absolute value above 29000) is adopted. -/
def idLoop (t : GameTree) (stop : Bool) (remaining depth : Nat)
    (best_move : Option Nat) (best_score : Int) (pv : List Nat) : SearchResultM :=
  match remaining with
  | 0 => ⟨best_move, best_score, depth - 1, pv⟩
  | r + 1 =>
    if stop then ⟨best_move, best_score, depth, pv⟩
    else
      let w := chooseWindow depth best_move
      let res := alpha_beta t (depth : Int) w.1 w.2 best_move stop
      let adopted : Option Nat × Int × List Nat :=
        if stop then (best_move, best_score, pv)
        else
          match res.2 with
          | some m => (some m, res.1, [m])
          | none => (best_move, best_score, pv)
      if 29000 < |res.1| then ⟨adopted.1, adopted.2.1, depth, adopted.2.2⟩
      else idLoop t stop r (depth + 1) adopted.1 adopted.2.1 adopted.2.2

/- ChessSearcher.iterative_deepening (search.py lines 332-408), for a run
   with no wall-clock limit (`should_stop` is the constant `stop`). -/
def iterative_deepening (t : GameTree) (max_depth : Nat) (stop : Bool) : SearchResultM :=
  idLoop t stop max_depth 1 none 0 []

mutual
/- Specification-side value of quiescence search with an unbounded window
   (spec section 8: `quiesce(p, -inf, +inf, k)`).  With no window, the
   stand-pat beta cutoff and the alpha floor disappear and the value is the
   maximum of the stand-pat score and the negated child values over the
   tactical moves, with the same recursion-depth floor as the code. -/
def qval (t : GameTree) (k : Int) : Int :=
  match t with
  | .node d cs =>
    let stand_pat := evaluate d
    if k < -10 then stand_pat
    else
      let tac := tacticalFilter cs
      if tac.isEmpty then stand_pat
      else qvalLoop (order_moves tac none) k stand_pat
termination_by sizeOf t
decreasing_by
  rw [sizeOf_order_moves]
  exact lt_of_le_of_lt (sizeOf_tacticalFilter_le _)
    (by simp only [GameTree.node.sizeOf_spec]; omega)

def qvalLoop (l : List (EdgeData × GameTree)) (k acc : Int) : Int :=
  match l with
  | [] => acc
  | x :: rest => qvalLoop rest k (max acc (-(qval x.2 (k - 1))))
termination_by sizeOf l
decreasing_by
  · exact sizeOf_snd_lt_cons _ _
  · exact sizeOf_tail_lt_cons _ _
end

mutual
/- Specification-side value of the adversarial search with an unbounded
   window (spec section 8: the score returned with a window of plus or
   minus infinity): plain negamax over the same tree, same terminal and
   leaf handling as alpha_beta, maximum over the children with no
   pruning. -/
def negamax_value (t : GameTree) (depth : Int) : Int :=
  match t with
  | .node d cs =>
    if d.isCheckmate then -30000 + (100 - depth)
    else if d.isStalemate || d.isInsufficientMaterial || d.canClaimDraw then 0
    else if depth ≤ 0 then qval t 0
    else
      match cs with
      | [] => if d.isCheck then -30000 + (100 - depth) else 0
      | c :: rest => nvLoop rest depth (-(negamax_value c.2 (depth - 1)))
termination_by sizeOf t
decreasing_by
  all_goals simp only [GameTree.node.sizeOf_spec, List.cons.sizeOf_spec]
  all_goals first
    | omega
    | exact lt_of_lt_of_le (sizeOf_snd_lt_pair _) (by omega)

def nvLoop (l : List (EdgeData × GameTree)) (depth acc : Int) : Int :=
  match l with
  | [] => acc
  | x :: rest => nvLoop rest depth (max acc (-(negamax_value x.2 (depth - 1))))
termination_by sizeOf l
decreasing_by
  · exact sizeOf_snd_lt_cons _ _
  · exact sizeOf_tail_lt_cons _ _
end

/- A board as the move filters observe it: the standard legal-move list and
   the capture predicate, both supplied by the external chess library. -/
structure FCBoard where
  legal_moves : List Nat
  is_capture : Nat → Bool

/- forced_legal_moves (forced_chess.py lines 3-7):
   `captures if captures else legal_moves`. -/
def forced_legal_moves (b : FCBoard) : List Nat :=
  let legal_moves := b.legal_moves
  let captures := legal_moves.filter b.is_capture
  if captures.isEmpty then legal_moves else captures

/- get_legal_moves_with_forced_capture (forced_capture.py lines 32-74):
   the same rule, written independently in the consolidated sources. -/
def get_legal_moves_with_forced_capture (b : FCBoard) : List Nat :=
  let all_legal_moves := b.legal_moves
  let capturing_moves := all_legal_moves.filter (fun move => b.is_capture move)
  if capturing_moves.isEmpty then all_legal_moves else capturing_moves

/- TTEntryType (transposition_table.py lines 29-38). -/
inductive TTEntryType where
  | EXACT : TTEntryType
  | LOWER_BOUND : TTEntryType
  | UPPER_BOUND : TTEntryType
deriving DecidableEq

/- TTEntry (transposition_table.py lines 41-52).  Moves are the opaque
   tokens of the model. -/
structure TTEntry where
  zobrist_key : Nat
  depth : Int
  score : Int
  entry_type : TTEntryType
  best_move : Option Nat
  age : Int
deriving DecidableEq

/- TranspositionTable (transposition_table.py lines 59-234).  The Python
   dict is an insertion-ordered association list with unique keys; the
   board argument of probe/store enters only through
   `chess.polyglot.zobrist_hash(board)`, so the model takes the fingerprint
   directly. -/
structure TranspositionTable where
  max_entries : Nat
  table : List (Nat × TTEntry)
  hits : Nat
  misses : Nat
  collisions : Nat
  current_age : Int
deriving DecidableEq

/- Dict lookup `self.table[key]` guarded by `key in self.table`. -/
def TranspositionTable.find (tt : TranspositionTable) (key : Nat) : Option TTEntry :=
  (tt.table.find? (fun kv => kv.1 == key)).map (fun kv => kv.2)

/- Python dict assignment: updating an existing key keeps its position,
   a new key is appended at the end. -/
def dictSet (l : List (Nat × TTEntry)) (key : Nat) (e : TTEntry) : List (Nat × TTEntry) :=
  match l with
  | [] => [(key, e)]
  | kv :: rest => if kv.1 == key then (key, e) :: rest else kv :: dictSet rest key e

/- The size-limit pass at the end of TranspositionTable.store
   (transposition_table.py lines 148-158): when the number of entries
   exceeds `max_entries`, sort by age ascending (Python's stable `sorted`)
   and delete the keys of the oldest tenth. -/
def limitSize (tt : TranspositionTable) : TranspositionTable :=
  if tt.max_entries < tt.table.length then
    let sorted_entries := List.insertionSort (fun x y => x.2.age ≤ y.2.age) tt.table
    let remove_count := sorted_entries.length / 10
    let removed := (sorted_entries.take remove_count).map (fun kv => kv.1)
    { tt with table := tt.table.filter (fun kv => !(removed.contains kv.1)) }
  else tt

/- TranspositionTable.store (transposition_table.py lines 113-158). -/
def TranspositionTable.store (tt : TranspositionTable) (key : Nat) (depth score : Int)
    (entry_type : TTEntryType) (best_move : Option Nat) : TranspositionTable :=
  match tt.find key with
  | some existing =>
    if depth < existing.depth ∧ tt.current_age - existing.age < 2 then tt
    else
      limitSize { tt with
        collisions := tt.collisions + 1,
        table := dictSet tt.table key
          ⟨key, depth, score, entry_type, best_move, tt.current_age⟩ }
  | none =>
    limitSize { tt with
      table := dictSet tt.table key
        ⟨key, depth, score, entry_type, best_move, tt.current_age⟩ }

/- TranspositionTable.probe (transposition_table.py lines 160-212).
   Returns `(usable_score, move_hint)` together with the table whose
   hit/miss counters were updated. -/
def TranspositionTable.probe (tt : TranspositionTable) (key : Nat) (depth alpha beta : Int) :
    (Option Int × Option Nat) × TranspositionTable :=
  match tt.find key with
  | none => ((none, none), { tt with misses := tt.misses + 1 })
  | some entry =>
    if entry.zobrist_key ≠ key then ((none, none), { tt with misses := tt.misses + 1 })
    else
      let tt1 := { tt with hits := tt.hits + 1 }
      if depth ≤ entry.depth then
        match entry.entry_type with
        | .EXACT => ((some entry.score, entry.best_move), tt1)
        | .LOWER_BOUND =>
          if beta ≤ entry.score then ((some entry.score, entry.best_move), tt1)
          else ((none, entry.best_move), tt1)
        | .UPPER_BOUND =>
          if entry.score ≤ alpha then ((some entry.score, entry.best_move), tt1)
          else ((none, entry.best_move), tt1)
      else ((none, entry.best_move), tt1)

/- Python numeric values flowing through src/search.py's minimax: integer
   scores mixed with `float("inf")` / `-float("inf")` sentinels. -/
inductive PyNum where
  | ninf : PyNum
  | fin : Int → PyNum
  | pinf : PyNum
deriving DecidableEq

/- Python `<=` on these values. -/
def PyNum.leb : PyNum → PyNum → Bool
  | .ninf, _ => true
  | _, .pinf => true
  | .fin a, .fin b => a ≤ b
  | .pinf, _ => false
  | .fin _, .ninf => false

/- Python `max(a, b)`: `a` when `a >= b`. -/
def PyNum.maxv (a b : PyNum) : PyNum := if PyNum.leb b a then a else b

/- Python `min(a, b)`: `a` when `a <= b`. -/
def PyNum.minv (a b : PyNum) : PyNum := if PyNum.leb a b then a else b

/- Transposition_Entry (transposition.py lines 38-44). -/
structure TTEntry2 where
  key : Nat
  depth : Int
  score : PyNum
  flag : String
  best_move : Option Nat
deriving DecidableEq

/- Transposition_Table (transposition.py lines 4-35): a fixed-size array of
   optional entries indexed by `key % size`. -/
structure TT2 where
  size : Nat
  table : List (Option TTEntry2)
deriving DecidableEq

def TT2.index (tt : TT2) (key : Nat) : Nat := key % tt.size

/- Transposition_Table.store (transposition.py lines 12-19): replace when
   the slot is empty or the new depth is at least the stored depth. -/
def TT2.store (tt : TT2) (key : Nat) (depth : Int) (score : PyNum) (flag : String)
    (best_move : Option Nat) : TT2 :=
  let idx := tt.index key
  match tt.table.getD idx none with
  | none => { tt with table := tt.table.set idx (some ⟨key, depth, score, flag, best_move⟩) }
  | some entry =>
    if entry.depth ≤ depth then
      { tt with table := tt.table.set idx (some ⟨key, depth, score, flag, best_move⟩) }
    else tt

/- Transposition_Table.lookup (transposition.py lines 21-28). -/
def TT2.lookup (tt : TT2) (key : Nat) : Option TTEntry2 :=
  match tt.table.getD (tt.index key) none with
  | some entry => if entry.key = key then some entry else none
  | none => none

/- The bound classification at the end of minimax (search.py lines 55-60),
   applied to the window the node was entered with. -/
def classifyFlag (alpha_orig beta_orig m_eval : PyNum) : String :=
  if PyNum.leb m_eval alpha_orig then "UPPERBOUND"
  else if PyNum.leb beta_orig m_eval then "LOWERBOUND"
  else "EXACT"

/- The transposition-table preamble of minimax (search.py lines 11-25):
   given the looked-up entry, either an early-returned score, or the
   adjusted window to search with.  Result: (alpha, beta, early score). -/
def ttProbeAdjust (entry : Option TTEntry2) (depth : Int) (alpha beta : PyNum) :
    PyNum × PyNum × Option PyNum :=
  match entry with
  | none => (alpha, beta, none)
  | some e =>
    if depth ≤ e.depth then
      if e.flag = "EXACT" then (alpha, beta, some e.score)
      else
        let beta1 := if e.flag = "UPPERBOUND" then PyNum.minv beta e.score else beta
        let alpha1 := if e.flag = "LOWERBOUND" then PyNum.maxv alpha e.score else alpha
        if PyNum.leb beta1 alpha1 then (alpha1, beta1, some e.score)
        else (alpha1, beta1, none)
    else (alpha, beta, none)

/- Position data for the minimax of src/search.py: the Zobrist fingerprint,
   the `board.is_game_over()` flag and the board's `evaluate` output (a
   plain integer). -/
structure MNode where
  key : Nat
  isGameOver : Bool
  score : Int
deriving DecidableEq

/- A position with the `forced_legal_moves(board)` children. -/
inductive MTree where
  | node : MNode → List MTree → MTree

theorem sizeOf_mtree_head_lt (c : MTree) (rest : List MTree) :
    sizeOf c < sizeOf (c :: rest) := by
  simp only [List.cons.sizeOf_spec]
  omega

mutual
/- minimax (search.py lines 10-64).  The global TT is threaded as explicit
   state; `max_player = true` is the White branch.  The two per-move loops
   are mmLoopMax and mmLoopMin; both return the final `m_eval` together
   with the table produced by the recursive calls. -/
def minimax (t : MTree) (depth : Int) (alpha beta : PyNum) (max_player : Bool)
    (tt : TT2) : PyNum × TT2 :=
  match t with
  | .node d cs =>
    let alpha_orig := alpha
    let beta_orig := beta
    let probed := ttProbeAdjust (tt.lookup d.key) depth alpha beta
    match probed.2.2 with
    | some s => (s, tt)
    | none =>
      if depth = 0 || d.isGameOver then (PyNum.fin d.score, tt)
      else
        let stepped :=
          if max_player then mmLoopMax cs depth probed.1 probed.2.1 tt PyNum.ninf
          else mmLoopMin cs depth probed.1 probed.2.1 tt PyNum.pinf
        let flag := classifyFlag alpha_orig beta_orig stepped.1
        (stepped.1, TT2.store stepped.2 d.key depth stepped.1 flag none)
termination_by sizeOf t
decreasing_by
  · simp only [MTree.node.sizeOf_spec]; omega
  · simp only [MTree.node.sizeOf_spec]; omega

def mmLoopMax (l : List MTree) (depth : Int) (alpha beta : PyNum) (tt : TT2)
    (m_eval : PyNum) : PyNum × TT2 :=
  match l with
  | [] => (m_eval, tt)
  | c :: rest =>
    let r := minimax c (depth - 1) alpha beta false tt
    let m1 := PyNum.maxv m_eval r.1
    let alpha1 := PyNum.maxv alpha r.1
    if PyNum.leb beta alpha1 then (m1, r.2)
    else mmLoopMax rest depth alpha1 beta r.2 m1
termination_by sizeOf l
decreasing_by
  · exact sizeOf_mtree_head_lt _ _
  · exact sizeOf_tail_lt_cons _ _

def mmLoopMin (l : List MTree) (depth : Int) (alpha beta : PyNum) (tt : TT2)
    (m_eval : PyNum) : PyNum × TT2 :=
  match l with
  | [] => (m_eval, tt)
  | c :: rest =>
    let r := minimax c (depth - 1) alpha beta true tt
    let m1 := PyNum.minv m_eval r.1
    let beta1 := PyNum.minv beta r.1
    if PyNum.leb beta1 alpha then (m1, r.2)
    else mmLoopMin rest depth alpha beta1 r.2 m1
termination_by sizeOf l
decreasing_by
  · exact sizeOf_mtree_head_lt _ _
  · exact sizeOf_tail_lt_cons _ _
end

/- Specification-side definitions used to compare the code against the
   spec's words. -/

/- Modelled from the spec (section 6): the Evaluator's static score is
   White-perspective and "the core is responsible for sign-flipping into
   mover-relative terms before use"; this is the stand-pat value a
   mover-relative quiescence search would have to use. -/
def mover_relative_stand_pat (d : NodeData) : Int :=
  if d.turn then evaluate d else -(evaluate d)

/- Modelled from the spec (section 4.6): the window an aspiration-window
   driver would choose for an iteration, given the depth, the previous best
   move and the previous iteration's score: maximal at depth 1 or with no
   previous best move, otherwise the previous score plus or minus 25. -/
def aspiration_window_spec (depth : Nat) (best_move : Option Nat) (prev_score : Int) :
    Int × Int :=
  if depth = 1 ∨ best_move = none then (-999999, 999999)
  else (prev_score - 25, prev_score + 25)

/- Helper lemmas. -/

theorem mem_of_mem_order_moves {x : EdgeData × GameTree}
    {l : List (EdgeData × GameTree)} {pv : Option Nat}
    (h : x ∈ order_moves l pv) : x ∈ l :=
  (List.perm_insertionSort _ l).mem_iff.mp h

/- Claim C10. -/

/-- C10: for every board, the compulsory-capture move filter returns a
subset of the board's standard legal moves, and its result is empty exactly
when the board has no standard legal move at all; this holds for both
implementations of the filter (forced_chess.forced_legal_moves and
forced_capture.get_legal_moves_with_forced_capture). -/
theorem claim_C10_filter_invariant (b : FCBoard) :
    ((∀ m ∈ forced_legal_moves b, m ∈ b.legal_moves) ∧
      (forced_legal_moves b = [] ↔ b.legal_moves = [])) ∧
    ((∀ m ∈ get_legal_moves_with_forced_capture b, m ∈ b.legal_moves) ∧
      (get_legal_moves_with_forced_capture b = [] ↔ b.legal_moves = [])) := by
  unfold forced_legal_moves get_legal_moves_with_forced_capture
  by_cases h : (b.legal_moves.filter b.is_capture).isEmpty
  · simp only [h, if_true]
    exact ⟨⟨fun m hm => hm, by trivial⟩, ⟨fun m hm => hm, by trivial⟩⟩
  · simp only [h, Bool.false_eq_true, if_false]
    have hsub : ∀ m ∈ b.legal_moves.filter b.is_capture, m ∈ b.legal_moves :=
      fun m hm => List.mem_of_mem_filter hm
    have hne : b.legal_moves.filter b.is_capture ≠ [] := by
      intro hc
      rw [hc] at h
      exact h rfl
    have hiff : (b.legal_moves.filter b.is_capture = []) ↔ (b.legal_moves = []) := by
      constructor
      · intro hc
        exact absurd hc hne
      · intro hc
        rw [hc]
        rfl
    exact ⟨⟨hsub, hiff⟩, ⟨hsub, hiff⟩⟩

/-- Witness for C10 at a concrete board: the filtered move 2 is a standard
legal move of the board with legal moves [1, 2, 3] where only 2 captures. -/
theorem claim_C10_witness :
    2 ∈ (FCBoard.mk [1, 2, 3] (fun m => m == 2)).legal_moves :=
  (claim_C10_filter_invariant ⟨[1, 2, 3], fun m => m == 2⟩).1.1 2 (by decide)

/- Claim C8. -/

/-- C8 as stated fails on the code: at depth 2 with a previous best move
and previous score 0, the claim requires the aspiration window (-25, 25),
but iterative_deepening always chooses the maximal window. -/
theorem claim_C8_counterexample :
    ¬ (chooseWindow 2 (some 1) = aspiration_window_spec 2 (some 1) 0) := by
  decide

/-- C8 amended: at every iteration of the iterative-deepening driver, for
every depth and previous best move, the search is invoked with the fixed
maximal window (-999999, 999999); the driver never uses aspiration windows
and never re-searches a depth. -/
theorem claim_C8_amended (depth : Nat) (best_move : Option Nat) :
    chooseWindow depth best_move = (-999999, 999999) := rfl

/- Claim C9. -/

/-- C9: whenever the Move Source returns an empty legal-move set (and the
board is not already flagged terminal), the adversarial search returns a
terminal classification rather than an error: a mate score -30000 +
(100 - depth) (signed against the side to move) when the side to move is in
check, and exactly 0 (stalemate) otherwise, with no move. -/
theorem claim_C9_empty_moves_terminal (d : NodeData) (depth alpha beta : Int)
    (pv : Option Nat)
    (h1 : d.isCheckmate = false) (h2 : d.isStalemate = false)
    (h3 : d.isInsufficientMaterial = false) (h4 : d.canClaimDraw = false)
    (h5 : 0 < depth) :
    alpha_beta (.node d []) depth alpha beta pv false =
      (if d.isCheck then -30000 + (100 - depth) else 0, none) := by
  rw [alpha_beta]
  have h6 : ¬ depth ≤ 0 := by omega
  simp [h1, h2, h3, h4, h6]
  by_cases hc : d.isCheck <;> simp [hc]

/-- Witness for C9 at a concrete input: a stalemate-like node (no moves,
not in check) at depth 3 scores exactly 0, and a checkmate-like node (no
moves, in check) at depth 3 scores -30000 + 97. -/
theorem claim_C9_witness :
    alpha_beta (.node ⟨false, false, false, false, false, true, 7⟩ []) 3 (-999999) 999999
        none false = (0, none) ∧
    alpha_beta (.node ⟨false, false, false, false, true, true, 7⟩ []) 3 (-999999) 999999
        none false = (-30000 + 97, none) := by
  constructor
  · have := claim_C9_empty_moves_terminal ⟨false, false, false, false, false, true, 7⟩
      3 (-999999) 999999 none rfl rfl rfl rfl (by omega)
    simpa using this
  · have := claim_C9_empty_moves_terminal ⟨false, false, false, false, true, true, 7⟩
      3 (-999999) 999999 none rfl rfl rfl rfl (by omega)
    simpa using this

/- Claim C7. -/

/-- C7: on a quiet position (its tactical move set is empty: no captures
and no moves that give check) quiescence search returns exactly the
Evaluator's static score, for every remaining-depth argument k and every
window whose upper bound lies above that score (in particular for the
maximal window used by the code, which stands in for the spec's unbounded
window). -/
theorem claim_C7_quiescence_stand_pat (d : NodeData) (cs : List (EdgeData × GameTree))
    (k alpha beta : Int)
    (hquiet : tacticalFilter cs = []) (hb : evaluate d < beta) :
    quiescence_search (.node d cs) alpha beta k false = evaluate d := by
  rw [quiescence_search]
  have h1 : ¬ beta ≤ evaluate d := by omega
  by_cases hk : k < -10
  · simp [h1, hk]
  · simp [h1, hk, hquiet]

/-- Witness for C7 at a concrete input: a quiet position with static score
42 (one non-capturing, non-checking move available) evaluates to 42 under
quiescence for k = 0 and the maximal window. -/
theorem claim_C7_witness :
    quiescence_search
      (.node ⟨false, false, false, false, false, true, 42⟩
        [(⟨5, false, 0, 0, false⟩, .node ⟨false, false, false, false, false, false, 0⟩ [])])
      (-999999) 999999 0 false = 42 := by
  have := claim_C7_quiescence_stand_pat ⟨false, false, false, false, false, true, 42⟩
    [(⟨5, false, 0, 0, false⟩, .node ⟨false, false, false, false, false, false, 0⟩ [])]
    0 (-999999) 999999 rfl (by decide)
  simpa using this

/- Claim C2. -/

/-- C2 is the intended invariant but the code breaks it at the quiescence
leaves: for a Black-to-move checkmated position the Evaluator's
White-perspective static score is +30000 and quiescence search returns it
unchanged as the stand-pat score of the side to move, while the
mover-relative value demanded by the negamax convention (and computed by
alpha_beta's own checkmate branch) is negative for the checkmated mover. -/
theorem claim_C2_sign_convention_divergence :
    quiescence_search (.node ⟨true, false, false, false, true, false, 0⟩ [])
        (-999999) 999999 0 false = 30000 ∧
    mover_relative_stand_pat ⟨true, false, false, false, true, false, 0⟩ = -30000 ∧
    (alpha_beta (.node ⟨true, false, false, false, true, false, 0⟩ [])
        3 (-999999) 999999 none false).1 = -30000 + 97 := by
  refine ⟨?_, by decide, ?_⟩
  · rw [quiescence_search]
    simp [evaluate, tacticalFilter]
  · rw [alpha_beta]
    simp

/- Claim C4. -/

/-- C4: the Transposition Cache probe returns a usable score exactly when a
stored entry for the fingerprint exists whose depth is at least the
requested depth and whose bound is compatible with the window (EXACT
always; LOWER_BOUND only when the stored score is at least beta;
UPPER_BOUND only when the stored score is at most alpha); when no usable
score is returned but an entry exists, the entry's best move is still
returned as an ordering hint. -/
theorem claim_C4_probe_characterization (tt : TranspositionTable) (key : Nat)
    (depth alpha beta : Int) :
    (∀ s : Int, ((tt.probe key depth alpha beta).1).1 = some s ↔
      (∃ e, tt.find key = some e ∧ e.zobrist_key = key ∧ depth ≤ e.depth ∧
        s = e.score ∧
        (e.entry_type = TTEntryType.EXACT ∨
         (e.entry_type = TTEntryType.LOWER_BOUND ∧ beta ≤ e.score) ∨
         (e.entry_type = TTEntryType.UPPER_BOUND ∧ e.score ≤ alpha)))) ∧
    (((tt.probe key depth alpha beta).1).1 = none →
      ∀ e, tt.find key = some e → e.zobrist_key = key →
        ((tt.probe key depth alpha beta).1).2 = e.best_move) := by
  unfold TranspositionTable.probe
  cases hf : tt.find key with
  | none =>
    constructor
    · intro s
      constructor
      · intro h
        exact absurd h (by simp)
      · rintro ⟨e, he, -⟩
        exact absurd he (by simp)
    · intro _ e he
      exact absurd he (by simp)
  | some e =>
    by_cases hk : e.zobrist_key = key
    · simp only [hk, ne_eq, not_true_eq_false, if_false]
      by_cases hd : depth ≤ e.depth
      · simp only [hd, if_true]
        cases hty : e.entry_type with
        | EXACT =>
          constructor
          · intro s
            constructor
            · intro h
              simp only [Option.some.injEq] at h
              exact ⟨e, rfl, hk, hd, h.symm, Or.inl hty⟩
            · rintro ⟨e', he', -, -, hs, -⟩
              simp only [Option.some.injEq] at he'
              subst he'
              simp [hs]
          · intro h
            exact absurd h (by simp)
        | LOWER_BOUND =>
          by_cases hsc : beta ≤ e.score
          · simp only [hsc, if_true]
            constructor
            · intro s
              constructor
              · intro h
                simp only [Option.some.injEq] at h
                exact ⟨e, rfl, hk, hd, h.symm, Or.inr (Or.inl ⟨hty, hsc⟩)⟩
              · rintro ⟨e', he', -, -, hs, -⟩
                simp only [Option.some.injEq] at he'
                subst he'
                simp [hs]
            · intro h
              exact absurd h (by simp)
          · simp only [hsc, if_false]
            constructor
            · intro s
              constructor
              · intro h
                exact absurd h (by simp)
              · rintro ⟨e', he', -, -, -, hcomp⟩
                simp only [Option.some.injEq] at he'
                subst he'
                rcases hcomp with h | ⟨-, h⟩ | ⟨h, -⟩
                · rw [hty] at h
                  exact absurd h (by simp)
                · exact absurd h hsc
                · rw [hty] at h
                  exact absurd h (by simp)
            · intro _ e' he' _
              simp only [Option.some.injEq] at he'
              subst he'
              rfl
        | UPPER_BOUND =>
          by_cases hsc : e.score ≤ alpha
          · simp only [hsc, if_true]
            constructor
            · intro s
              constructor
              · intro h
                simp only [Option.some.injEq] at h
                exact ⟨e, rfl, hk, hd, h.symm, Or.inr (Or.inr ⟨hty, hsc⟩)⟩
              · rintro ⟨e', he', -, -, hs, -⟩
                simp only [Option.some.injEq] at he'
                subst he'
                simp [hs]
            · intro h
              exact absurd h (by simp)
          · simp only [hsc, if_false]
            constructor
            · intro s
              constructor
              · intro h
                exact absurd h (by simp)
              · rintro ⟨e', he', -, -, -, hcomp⟩
                simp only [Option.some.injEq] at he'
                subst he'
                rcases hcomp with h | ⟨h, -⟩ | ⟨-, h⟩
                · rw [hty] at h
                  exact absurd h (by simp)
                · rw [hty] at h
                  exact absurd h (by simp)
                · exact absurd h hsc
            · intro _ e' he' _
              simp only [Option.some.injEq] at he'
              subst he'
              rfl
      · simp only [hd, if_false]
        constructor
        · intro s
          constructor
          · intro h
            exact absurd h (by simp)
          · rintro ⟨e', he', -, hd', -⟩
            simp only [Option.some.injEq] at he'
            subst he'
            exact absurd hd' hd
        · intro _ e' he' _
          simp only [Option.some.injEq] at he'
          subst he'
          rfl
    · simp only [hk, ne_eq, not_false_eq_true, if_true]
      constructor
      · intro s
        constructor
        · intro h
          exact absurd h (by simp)
        · rintro ⟨e', he', hk', -⟩
          simp only [Option.some.injEq] at he'
          subst he'
          exact absurd hk' hk
      · intro _ e' he' hk'
        simp only [Option.some.injEq] at he'
        subst he'
        exact absurd hk' hk

/-- Witness for C4 at a concrete table: with a stored LOWER_BOUND entry of
depth 6, score 200, probing at depth 5 with beta = 150 yields the usable
score 200, and probing at depth 9 yields no score but the stored move hint. -/
theorem claim_C4_witness :
    ((TranspositionTable.probe ⟨100, [(3, ⟨3, 6, 200, TTEntryType.LOWER_BOUND, some 8, 0⟩)],
        0, 0, 0, 0⟩ 3 5 (-1000) 150).1).1 = some 200 ∧
    ((TranspositionTable.probe ⟨100, [(3, ⟨3, 6, 200, TTEntryType.LOWER_BOUND, some 8, 0⟩)],
        0, 0, 0, 0⟩ 3 9 (-1000) 150).1).2 = some 8 := by
  constructor
  · exact ((claim_C4_probe_characterization
      ⟨100, [(3, ⟨3, 6, 200, TTEntryType.LOWER_BOUND, some 8, 0⟩)], 0, 0, 0, 0⟩
      3 5 (-1000) 150).1 200).mpr
      ⟨⟨3, 6, 200, TTEntryType.LOWER_BOUND, some 8, 0⟩, by decide, rfl, by decide, rfl,
        Or.inr (Or.inl ⟨rfl, by decide⟩)⟩
  · exact (claim_C4_probe_characterization
      ⟨100, [(3, ⟨3, 6, 200, TTEntryType.LOWER_BOUND, some 8, 0⟩)], 0, 0, 0, 0⟩
      3 9 (-1000) 150).2 (by decide)
      ⟨3, 6, 200, TTEntryType.LOWER_BOUND, some 8, 0⟩ (by decide) rfl

/- Claim C5. -/

theorem find?_dictSet (l : List (Nat × TTEntry)) (key : Nat) (e : TTEntry) :
    (dictSet l key e).find? (fun kv => kv.1 == key) = some (key, e) := by
  induction l with
  | nil => simp [dictSet]
  | cons kv rest ih =>
    by_cases h : kv.1 = key
    · simp [dictSet, h]
    · simp only [dictSet]
      rw [if_neg (by simpa using h)]
      rw [List.find?_cons_of_neg _ (by simpa using h)]
      exact ih

theorem find_dictSet (tt : TranspositionTable) (key : Nat) (e : TTEntry) :
    TranspositionTable.find { tt with table := dictSet tt.table key e } key = some e := by
  unfold TranspositionTable.find
  rw [find?_dictSet]
  rfl

/-- C5 as stated fails on the code: with a stored entry of depth 5 and age
0 at the current generation 5 (so only 5 generations older, not more than
10), a store at the shallower depth 3 must be a no-op according to the
claim, but the code overwrites the entry (its age test fires at a
difference of 2 generations, not 10). -/
theorem claim_C5_counterexample :
    ((TranspositionTable.store ⟨100, [(7, ⟨7, 5, 11, TTEntryType.EXACT, none, 0⟩)],
        0, 0, 0, 5⟩ 7 3 42 TTEntryType.EXACT none).find 7).map (fun e => e.depth)
      = some 3 ∧
    ((⟨100, [(7, ⟨7, 5, 11, TTEntryType.EXACT, none, 0⟩)], 0, 0, 0, 5⟩ :
        TranspositionTable).find 7).map (fun e => e.depth) = some 5 := by
  constructor
  · rfl
  · rfl

/-- C5 amended: for every store into the Transposition Cache, an empty slot
is always filled; a colliding occupied slot is overwritten exactly when the
new depth is at least the stored depth, or the stored entry's age is at
least 2 generations older than the current generation; in every other case
the store leaves the table unchanged.  (The more-than-10-generations
threshold belongs to the periodic sweep in new_search, not to store.)
After a fill or overwrite the size-limit pass runs on the updated table. -/
theorem claim_C5_amended (tt : TranspositionTable) (key : Nat) (depth score : Int)
    (ty : TTEntryType) (bm : Option Nat) :
    (∀ e, tt.find key = some e → depth < e.depth → tt.current_age - e.age < 2 →
      tt.store key depth score ty bm = tt) ∧
    (tt.find key = none →
      ∃ t1, tt.store key depth score ty bm = limitSize t1 ∧
        t1.find key = some ⟨key, depth, score, ty, bm, tt.current_age⟩) ∧
    (∀ e, tt.find key = some e → (e.depth ≤ depth ∨ 2 ≤ tt.current_age - e.age) →
      ∃ t1, tt.store key depth score ty bm = limitSize t1 ∧
        t1.find key = some ⟨key, depth, score, ty, bm, tt.current_age⟩) := by
  refine ⟨?_, ?_, ?_⟩
  · intro e he h1 h2
    unfold TranspositionTable.store
    rw [he]
    simp [h1, h2]
  · intro he
    unfold TranspositionTable.store
    rw [he]
    exact ⟨_, rfl, find_dictSet tt key _⟩
  · intro e he hrep
    unfold TranspositionTable.store
    rw [he]
    dsimp only
    have hcond : ¬ (depth < e.depth ∧ tt.current_age - e.age < 2) := by omega
    rw [if_neg hcond]
    exact ⟨_, rfl, find_dictSet _ key _⟩

/-- Witness for C5 (amended) at concrete inputs: storing into an empty
table places the new entry, and a colliding store with equal depth
overwrites. -/
theorem claim_C5_witness :
    (∃ t1, TranspositionTable.store ⟨100, [], 0, 0, 0, 1⟩ 9 4 77 TTEntryType.EXACT none
        = limitSize t1 ∧
      t1.find 9 = some ⟨9, 4, 77, TTEntryType.EXACT, none, 1⟩) ∧
    (∃ t1, TranspositionTable.store ⟨100, [(9, ⟨9, 4, 77, TTEntryType.EXACT, none, 0⟩)],
          0, 0, 0, 1⟩ 9 4 88 TTEntryType.LOWER_BOUND none = limitSize t1 ∧
      t1.find 9 = some ⟨9, 4, 88, TTEntryType.LOWER_BOUND, none, 1⟩) := by
  constructor
  · exact (claim_C5_amended ⟨100, [], 0, 0, 0, 1⟩ 9 4 77 TTEntryType.EXACT none).2.1 rfl
  · exact (claim_C5_amended ⟨100, [(9, ⟨9, 4, 77, TTEntryType.EXACT, none, 0⟩)],
        0, 0, 0, 1⟩ 9 4 88 TTEntryType.LOWER_BOUND none).2.2
      ⟨9, 4, 77, TTEntryType.EXACT, none, 0⟩ rfl (Or.inl (by decide))

/- Claim C3. -/

theorem abLoop_move_mem (S : List Nat) :
    ∀ (l : List (EdgeData × GameTree)) (depth alpha beta : Int)
      (bm : Option Nat) (bs : Int) (stop : Bool),
      (∀ x ∈ l, x.1.move ∈ S) → (∀ m, bm = some m → m ∈ S) →
      ∀ m, (abLoop l depth alpha beta bm bs stop).2 = some m → m ∈ S := by
  intro l
  induction l with
  | nil =>
    intro depth alpha beta bm bs stop _ hbm m hm
    rw [abLoop] at hm
    exact hbm m hm
  | cons x rest ih =>
    intro depth alpha beta bm bs stop hl hbm m hm
    rw [abLoop] at hm
    have hx : x.1.move ∈ S := hl x (List.mem_cons_self x rest)
    have hrest : ∀ y ∈ rest, y.1.move ∈ S := fun y hy => hl y (List.mem_cons_of_mem x hy)
    set score := -(alpha_beta x.2 (depth - 1) (-beta) (-alpha) none stop).1 with hscore
    have hbm' : ∀ m', (if bs < score then some x.1.move else bm) = some m' → m' ∈ S := by
      intro m' hm'
      by_cases hlt : bs < score
      · rw [if_pos hlt] at hm'
        cases hm'
        exact hx
      · rw [if_neg hlt] at hm'
        exact hbm m' hm'
    by_cases h1 : beta ≤ score
    · simp only [h1, if_true] at hm
      exact hbm' m hm
    · simp only [h1, if_false] at hm
      by_cases h2 : alpha < score
      · simp only [h2, if_true] at hm
        exact ih _ score beta _ _ stop hrest hbm' m hm
      · simp only [h2, if_false] at hm
        exact ih _ alpha beta _ _ stop hrest hbm' m hm

theorem alpha_beta_move_mem (t : GameTree) (depth alpha beta : Int)
    (pv : Option Nat) (stop : Bool) :
    ∀ m, (alpha_beta t depth alpha beta pv stop).2 = some m → m ∈ rootMoves t := by
  cases t with
  | node d cs =>
    intro m hm
    rw [alpha_beta] at hm
    by_cases h0 : stop
    · simp [h0] at hm
    · simp only [h0, Bool.false_eq_true, if_false] at hm
      by_cases h1 : d.isCheckmate
      · simp [h1] at hm
      · simp only [h1, Bool.false_eq_true, if_false] at hm
        by_cases h2 : (d.isStalemate || d.isInsufficientMaterial || d.canClaimDraw : Bool)
        · simp [h2] at hm
        · simp only [h2, Bool.false_eq_true, if_false] at hm
          by_cases h3 : depth ≤ 0
          · simp [h3] at hm
          · simp only [h3, if_false] at hm
            by_cases h4 : cs.isEmpty
            · by_cases h5 : d.isCheck <;> simp [h4, h5] at hm
            · simp only [h4, Bool.false_eq_true, if_false] at hm
              refine abLoop_move_mem (rootMoves (.node d cs)) (order_moves cs pv)
                depth alpha beta none (-999999) false ?_ ?_ m hm
              · intro x hx
                have := mem_of_mem_order_moves hx
                exact List.mem_map.mpr ⟨x, this, rfl⟩
              · intro m' hm'
                cases hm'

theorem idLoop_move_mem (t : GameTree) (stop : Bool) :
    ∀ (remaining depth : Nat) (bm : Option Nat) (bs : Int) (pv : List Nat),
      (∀ m, bm = some m → m ∈ rootMoves t) →
      ∀ m, (idLoop t stop remaining depth bm bs pv).best_move = some m → m ∈ rootMoves t := by
  intro remaining
  induction remaining with
  | zero =>
    intro depth bm bs pv hbm m hm
    rw [idLoop] at hm
    exact hbm m hm
  | succ r ih =>
    intro depth bm bs pv hbm m hm
    rw [idLoop] at hm
    cases hstop : stop with
    | true =>
      subst hstop
      simp only [if_true] at hm
      exact hbm m hm
    | false =>
      subst hstop
      simp only [Bool.false_eq_true, if_false] at hm
      cases hres : (alpha_beta t (depth : Int) (chooseWindow depth bm).1
          (chooseWindow depth bm).2 bm false).2 with
      | none =>
        rw [hres] at hm
        simp only at hm
        by_cases h1 : 29000 < |(alpha_beta t (depth : Int) (chooseWindow depth bm).1
            (chooseWindow depth bm).2 bm false).1|
        · simp only [h1, if_true] at hm
          exact hbm m hm
        · simp only [h1, if_false] at hm
          exact ih (depth + 1) _ _ _ hbm m hm
      | some mv =>
        rw [hres] at hm
        simp only at hm
        have hmv : mv ∈ rootMoves t :=
          alpha_beta_move_mem t (depth : Int) (chooseWindow depth bm).1
            (chooseWindow depth bm).2 bm false mv hres
        have hadopt : ∀ m', (some mv : Option Nat) = some m' → m' ∈ rootMoves t := by
          intro m' hm'
          cases hm'
          exact hmv
        by_cases h1 : 29000 < |(alpha_beta t (depth : Int) (chooseWindow depth bm).1
            (chooseWindow depth bm).2 bm false).1|
        · simp only [h1, if_true] at hm
          exact hadopt m hm
        · simp only [h1, if_false] at hm
          exact ih (depth + 1) _ _ _ hadopt m hm

/-- C3: for every position and every depth budget, whenever the top-level
iterative-deepening search returns a move (rather than no move), that move
is an element of the legal-move set the Move Source produces for that
position (the root's children). -/
theorem claim_C3_returned_move_legal (t : GameTree) (max_depth : Nat) (stop : Bool)
    (m : Nat) (h : (iterative_deepening t max_depth stop).best_move = some m) :
    m ∈ rootMoves t := by
  unfold iterative_deepening at h
  exact idLoop_move_mem t stop max_depth 1 none 0 [] (fun m' hm' => by cases hm') m h

/-- Witness for C3 at a concrete input: on a position with the single legal
move 7, the driver at depth 1 returns move 7, which is in the Move Source's
legal-move set. -/
theorem claim_C3_witness :
    (iterative_deepening
      (.node ⟨false, false, false, false, false, true, 0⟩
        [(⟨7, false, 0, 0, false⟩, .node ⟨false, false, false, false, false, false, 0⟩ [])])
      1 false).best_move = some 7 ∧
    7 ∈ rootMoves
      (.node ⟨false, false, false, false, false, true, 0⟩
        [(⟨7, false, 0, 0, false⟩,
          .node ⟨false, false, false, false, false, false, 0⟩ [])]) := by
  have h : (iterative_deepening
      (.node ⟨false, false, false, false, false, true, 0⟩
        [(⟨7, false, 0, 0, false⟩, .node ⟨false, false, false, false, false, false, 0⟩ [])])
      1 false).best_move = some 7 := by
    simp [iterative_deepening, idLoop, chooseWindow, alpha_beta, abLoop, quiescence_search,
      evaluate, tacticalFilter, order_moves, List.insertionSort, List.orderedInsert,
      moveScore]
  exact ⟨h, claim_C3_returned_move_legal _ 1 false 7 h⟩

/- Claim C6. -/

theorem PyNum.leb_trans {a b c : PyNum} (h1 : PyNum.leb a b = true)
    (h2 : PyNum.leb b c = true) : PyNum.leb a c = true := by
  cases a <;> cases b <;> cases c <;> simp_all [PyNum.leb] <;> omega

theorem classifyFlag_characterization (alpha beta m : PyNum)
    (hab : PyNum.leb beta alpha = false) :
    ((classifyFlag alpha beta m = "UPPERBOUND") ↔ PyNum.leb m alpha = true) ∧
    ((classifyFlag alpha beta m = "LOWERBOUND") ↔ PyNum.leb beta m = true) ∧
    ((classifyFlag alpha beta m = "EXACT") ↔
      (PyNum.leb m alpha = false ∧ PyNum.leb beta m = false)) := by
  unfold classifyFlag
  by_cases h1 : PyNum.leb m alpha
  · have h2 : PyNum.leb beta m = false := by
      cases hbm : PyNum.leb beta m
      · rfl
      · rw [PyNum.leb_trans hbm h1] at hab
        cases hab
    simp [h1, h2]
  · have h1' : PyNum.leb m alpha = false := by
      cases hx : PyNum.leb m alpha
      · rfl
      · exact absurd hx h1
    by_cases h2 : PyNum.leb beta m
    · simp [h1', h2]
    · have h2' : PyNum.leb beta m = false := by
        cases hx : PyNum.leb beta m
        · rfl
        · exact absurd hx h2
      simp [h1', h2']

/-- C6: for every completed (non-terminal, non-leaf) node of minimax, with
a proper entry window (alpha below beta) and no usable transposition entry,
the bound kind stored with the node's result is determined by how the final
score relates to the window the node was entered with: UPPERBOUND exactly
when the score is at most the original alpha, LOWERBOUND exactly when the
score is at least the original beta, EXACT exactly otherwise — one kind is
assigned and it is stored into the transposition table before the node
returns. -/
theorem claim_C6_stored_bound_kind (d : MNode) (cs : List MTree) (depth : Int)
    (alpha beta : PyNum) (max_player : Bool) (tt : TT2)
    (hprobe : (ttProbeAdjust (tt.lookup d.key) depth alpha beta).2.2 = none)
    (hdepth : ¬ (depth = 0)) (hgo : d.isGameOver = false)
    (hab : PyNum.leb beta alpha = false) :
    (∃ t1, (minimax (.node d cs) depth alpha beta max_player tt).2 =
      TT2.store t1 d.key depth (minimax (.node d cs) depth alpha beta max_player tt).1
        (classifyFlag alpha beta (minimax (.node d cs) depth alpha beta max_player tt).1)
        none) ∧
    ((classifyFlag alpha beta (minimax (.node d cs) depth alpha beta max_player tt).1
        = "UPPERBOUND") ↔
      PyNum.leb (minimax (.node d cs) depth alpha beta max_player tt).1 alpha = true) ∧
    ((classifyFlag alpha beta (minimax (.node d cs) depth alpha beta max_player tt).1
        = "LOWERBOUND") ↔
      PyNum.leb beta (minimax (.node d cs) depth alpha beta max_player tt).1 = true) ∧
    ((classifyFlag alpha beta (minimax (.node d cs) depth alpha beta max_player tt).1
        = "EXACT") ↔
      (PyNum.leb (minimax (.node d cs) depth alpha beta max_player tt).1 alpha = false ∧
       PyNum.leb beta (minimax (.node d cs) depth alpha beta max_player tt).1 = false)) := by
  have hchar := classifyFlag_characterization alpha beta
    (minimax (.node d cs) depth alpha beta max_player tt).1 hab
  refine ⟨?_, hchar.1, hchar.2.1, hchar.2.2⟩
  rw [minimax]
  simp only [hprobe]
  by_cases hmp : max_player <;>
    simp only [hmp, hdepth, hgo, decide_eq_true_eq, if_true, Bool.false_eq_true,
      if_false, decide_eq_false_iff_not, not_false_eq_true] <;>
    simp [hdepth, hgo] <;>
    exact ⟨_, rfl⟩

/-- Witness for C6 at a concrete input: a fresh table, window (0, 10),
depth 1, a childless non-terminal node — the node's result is stored with
its classified bound kind. -/
theorem claim_C6_witness :
    ∃ t1, (minimax (.node ⟨0, false, 3⟩ []) 1 (.fin 0) (.fin 10) true
        ⟨3, [none, none, none]⟩).2 =
      TT2.store t1 0 1
        (minimax (.node ⟨0, false, 3⟩ []) 1 (.fin 0) (.fin 10) true
          ⟨3, [none, none, none]⟩).1
        (classifyFlag (.fin 0) (.fin 10)
          (minimax (.node ⟨0, false, 3⟩ []) 1 (.fin 0) (.fin 10) true
            ⟨3, [none, none, none]⟩).1)
        none :=
  (claim_C6_stored_bound_kind ⟨0, false, 3⟩ [] 1 (.fin 0) (.fin 10) true
    ⟨3, [none, none, none]⟩ rfl (by decide) rfl rfl).1

/- Claim C1. -/

theorem GameTree.inductionTree (P : GameTree → Prop)
    (h : ∀ d cs, (∀ x ∈ cs, P x.2) → P (.node d cs)) : ∀ t, P t := by
  have key : ∀ n : Nat, ∀ t : GameTree, sizeOf t ≤ n → P t := by
    intro n
    induction n with
    | zero =>
      intro t ht
      cases t with
      | node d cs =>
        simp only [GameTree.node.sizeOf_spec] at ht
        exact absurd ht (by omega)
    | succ n ih =>
      intro t ht
      cases t with
      | node d cs =>
        refine h d cs ?_
        intro x hx
        refine ih x.2 ?_
        have h1 := List.sizeOf_lt_of_mem hx
        have h2 := sizeOf_snd_lt_pair x
        simp only [GameTree.node.sizeOf_spec] at ht
        omega
  intro t
  exact key (sizeOf t) t le_rfl

theorem qvalLoop_le_init : ∀ (l : List (EdgeData × GameTree)) (k acc : Int),
    acc ≤ qvalLoop l k acc := by
  intro l
  induction l with
  | nil =>
    intro k acc
    rw [qvalLoop]
  | cons x rest ih =>
    intro k acc
    rw [qvalLoop]
    exact le_trans (le_max_left _ _) (ih k _)

theorem qvalLoop_max : ∀ (l : List (EdgeData × GameTree)) (k a b : Int),
    qvalLoop l k (max a b) = max (qvalLoop l k a) b := by
  intro l
  induction l with
  | nil =>
    intro k a b
    rw [qvalLoop, qvalLoop]
  | cons x rest ih =>
    intro k a b
    rw [qvalLoop, qvalLoop]
    have hc : max (max a b) (-(qval x.2 (k - 1))) = max (max a (-(qval x.2 (k - 1)))) b := by
      omega
    rw [hc]
    exact ih k _ b

theorem qsearchLoop_trichotomy (k : Int) :
    ∀ (l : List (EdgeData × GameTree)),
      (∀ x ∈ l, ∀ (a b : Int), a < b →
        ((quiescence_search x.2 a b (k - 1) false ≤ a → qval x.2 (k - 1) ≤ a) ∧
         (b ≤ quiescence_search x.2 a b (k - 1) false → b ≤ qval x.2 (k - 1)) ∧
         (a < quiescence_search x.2 a b (k - 1) false →
          quiescence_search x.2 a b (k - 1) false < b →
          quiescence_search x.2 a b (k - 1) false = qval x.2 (k - 1)))) →
      ∀ (a b : Int), a < b →
        a ≤ qsearchLoop l a b k false ∧
        (qsearchLoop l a b k false < b →
          qsearchLoop l a b k false = qvalLoop l k a) ∧
        (b ≤ qsearchLoop l a b k false → b ≤ qvalLoop l k a) := by
  intro l
  induction l with
  | nil =>
    intro _ a b hab
    rw [qsearchLoop, qvalLoop]
    exact ⟨le_refl a, fun _ => rfl, fun h => absurd h (by omega)⟩
  | cons x rest ih =>
    intro hch a b hab
    have hx := hch x (List.mem_cons_self x rest) (-b) (-a) (by omega)
    obtain ⟨hx1, hx2, hx3⟩ := hx
    have hrest := ih (fun y hy => hch y (List.mem_cons_of_mem x hy))
    have heq : qsearchLoop (x :: rest) a b k false =
        (if b ≤ -(quiescence_search x.2 (-b) (-a) (k - 1) false) then b
         else if a < -(quiescence_search x.2 (-b) (-a) (k - 1) false) then
           qsearchLoop rest (-(quiescence_search x.2 (-b) (-a) (k - 1) false)) b k false
         else qsearchLoop rest a b k false) := by
      rw [qsearchLoop]
    have hveq : qvalLoop (x :: rest) k a =
        qvalLoop rest k (max a (-(qval x.2 (k - 1)))) := by
      rw [qvalLoop]
    rw [heq, hveq]
    set s := -(quiescence_search x.2 (-b) (-a) (k - 1) false) with hs
    set sv := -(qval x.2 (k - 1)) with hsv
    by_cases h1 : b ≤ s
    · have hbv : b ≤ sv := by
        have := hx1 (by omega)
        omega
      simp only [h1, if_true]
      refine ⟨by omega, fun h => absurd h (by omega), fun _ => ?_⟩
      have := qvalLoop_le_init rest k (max a sv)
      have : b ≤ max a sv := le_trans hbv (le_max_right a sv)
      omega
    · by_cases h2 : a < s
      · have hse : s = sv := by
          have := hx3 (by omega) (by omega)
          omega
        have hmax : max a sv = s := by omega
        simp only [h1, if_false, h2, if_true]
        obtain ⟨g1, g2, g3⟩ := hrest s b (by omega)
        rw [hmax]
        exact ⟨by omega, g2, g3⟩
      · have hsva : sv ≤ a := by
          have := hx2 (by omega)
          omega
        have hmax : max a sv = a := by omega
        simp only [h1, if_false, h2, if_false]
        obtain ⟨g1, g2, g3⟩ := hrest a b hab
        rw [hmax]
        exact ⟨g1, g2, g3⟩

theorem quiescence_trichotomy : ∀ (t : GameTree) (k a b : Int), a < b →
    ((quiescence_search t a b k false ≤ a → qval t k ≤ a) ∧
     (b ≤ quiescence_search t a b k false → b ≤ qval t k) ∧
     (a < quiescence_search t a b k false → quiescence_search t a b k false < b →
      quiescence_search t a b k false = qval t k)) := by
  intro t
  induction t using GameTree.inductionTree with
  | h d cs ih =>
    intro k a b hab
    have heq : quiescence_search (.node d cs) a b k false =
        (if b ≤ evaluate d then b
         else if k < -10 then evaluate d
         else if (tacticalFilter cs).isEmpty then evaluate d
         else qsearchLoop (order_moves (tacticalFilter cs) none)
           (if a < evaluate d then evaluate d else a) b k false) := by
      rw [quiescence_search]
      rfl
    have hveq : qval (.node d cs) k =
        (if k < -10 then evaluate d
         else if (tacticalFilter cs).isEmpty then evaluate d
         else qvalLoop (order_moves (tacticalFilter cs) none) k (evaluate d)) := by
      rw [qval]
    rw [heq, hveq]
    by_cases hsp : b ≤ evaluate d
    · simp only [hsp, if_true]
      refine ⟨fun h => absurd h (by omega), fun _ => ?_, fun _ h => absurd h (by omega)⟩
      by_cases hk : k < -10
      · simp only [hk, if_true]
        omega
      · by_cases htac : (tacticalFilter cs).isEmpty
        · simp only [hk, if_false, htac, if_true]
          omega
        · simp only [hk, if_false, htac, Bool.false_eq_true, if_false]
          have := qvalLoop_le_init (order_moves (tacticalFilter cs) none) k (evaluate d)
          omega
    · simp only [hsp, if_false]
      by_cases hk : k < -10
      · simp [hk]
      · simp only [hk, if_false]
        by_cases htac : (tacticalFilter cs).isEmpty
        · simp [htac]
        · simp only [htac, Bool.false_eq_true, if_false]
          have hch : ∀ x ∈ order_moves (tacticalFilter cs) none, ∀ (a' b' : Int), a' < b' →
              ((quiescence_search x.2 a' b' (k - 1) false ≤ a' → qval x.2 (k - 1) ≤ a') ∧
               (b' ≤ quiescence_search x.2 a' b' (k - 1) false → b' ≤ qval x.2 (k - 1)) ∧
               (a' < quiescence_search x.2 a' b' (k - 1) false →
                quiescence_search x.2 a' b' (k - 1) false < b' →
                quiescence_search x.2 a' b' (k - 1) false = qval x.2 (k - 1))) := by
            intro x hx a' b' hab'
            have hmem : x ∈ cs :=
              List.mem_of_mem_filter (mem_of_mem_order_moves hx)
            exact ih x hmem (k - 1) a' b' hab'
          have halpha1 : (if a < evaluate d then evaluate d else a) = max a (evaluate d) := by
            omega
          rw [halpha1]
          obtain ⟨g1, g2, g3⟩ := qsearchLoop_trichotomy k
            (order_moves (tacticalFilter cs) none) hch (max a (evaluate d)) b (by omega)
          have hw : qvalLoop (order_moves (tacticalFilter cs) none) k (max a (evaluate d)) =
              max (qvalLoop (order_moves (tacticalFilter cs) none) k (evaluate d)) a := by
            rw [max_comm a (evaluate d)]
            exact qvalLoop_max (order_moves (tacticalFilter cs) none) k (evaluate d) a
          rw [hw] at g2 g3
          refine ⟨fun h => ?_, fun h => ?_, fun h h' => ?_⟩
          · have h2 := g2 (by omega)
            omega
          · have := g3 h
            omega
          · have := g2 h'
            omega

theorem nvLoop_le_init : ∀ (l : List (EdgeData × GameTree)) (depth acc : Int),
    acc ≤ nvLoop l depth acc := by
  intro l
  induction l with
  | nil =>
    intro depth acc
    rw [nvLoop]
  | cons x rest ih =>
    intro depth acc
    rw [nvLoop]
    exact le_trans (le_max_left _ _) (ih depth _)

theorem nvLoop_max : ∀ (l : List (EdgeData × GameTree)) (depth a b : Int),
    nvLoop l depth (max a b) = max (nvLoop l depth a) b := by
  intro l
  induction l with
  | nil =>
    intro depth a b
    rw [nvLoop, nvLoop]
  | cons x rest ih =>
    intro depth a b
    rw [nvLoop, nvLoop]
    have hc : max (max a b) (-(negamax_value x.2 (depth - 1))) =
        max (max a (-(negamax_value x.2 (depth - 1)))) b := by
      omega
    rw [hc]
    exact ih depth _ b

theorem nvLoop_perm {l1 l2 : List (EdgeData × GameTree)} (h : List.Perm l1 l2) :
    ∀ (depth acc : Int), nvLoop l1 depth acc = nvLoop l2 depth acc := by
  induction h with
  | nil => intro depth acc; rfl
  | cons x h ih =>
    intro depth acc
    rw [nvLoop, nvLoop]
    exact ih depth _
  | swap x y l =>
    intro depth acc
    rw [nvLoop, nvLoop, nvLoop, nvLoop]
    have hc : max (max acc (-(negamax_value y.2 (depth - 1)))) (-(negamax_value x.2 (depth - 1)))
        = max (max acc (-(negamax_value x.2 (depth - 1)))) (-(negamax_value y.2 (depth - 1))) := by
      omega
    rw [hc]
  | trans h1 h2 ih1 ih2 =>
    intro depth acc
    rw [ih1, ih2]

theorem abLoop_trichotomy (depth : Int) :
    ∀ (l : List (EdgeData × GameTree)),
      (∀ x ∈ l, ∀ (a b : Int), a < b →
        (((alpha_beta x.2 (depth - 1) a b none false).1 ≤ a →
            negamax_value x.2 (depth - 1) ≤ a) ∧
         (b ≤ (alpha_beta x.2 (depth - 1) a b none false).1 →
            b ≤ negamax_value x.2 (depth - 1)) ∧
         (a < (alpha_beta x.2 (depth - 1) a b none false).1 →
          (alpha_beta x.2 (depth - 1) a b none false).1 < b →
          (alpha_beta x.2 (depth - 1) a b none false).1 = negamax_value x.2 (depth - 1)))) →
      ∀ (a b bs : Int) (bm : Option Nat), a < b →
        a ≤ (abLoop l depth a b bm bs false).1 ∧
        ((abLoop l depth a b bm bs false).1 < b →
          (abLoop l depth a b bm bs false).1 = nvLoop l depth a) ∧
        (b ≤ (abLoop l depth a b bm bs false).1 → b ≤ nvLoop l depth a) := by
  intro l
  induction l with
  | nil =>
    intro _ a b bs bm hab
    rw [abLoop, nvLoop]
    exact ⟨le_refl a, fun _ => rfl, fun h => absurd h (by omega)⟩
  | cons x rest ih =>
    intro hch a b bs bm hab
    have hx := hch x (List.mem_cons_self x rest) (-b) (-a) (by omega)
    obtain ⟨hx1, hx2, hx3⟩ := hx
    have hrest := ih (fun y hy => hch y (List.mem_cons_of_mem x hy))
    have heq : (abLoop (x :: rest) depth a b bm bs false).1 =
        (if b ≤ -(alpha_beta x.2 (depth - 1) (-b) (-a) none false).1 then b
         else if a < -(alpha_beta x.2 (depth - 1) (-b) (-a) none false).1 then
           (abLoop rest depth (-(alpha_beta x.2 (depth - 1) (-b) (-a) none false).1) b
             (if bs < -(alpha_beta x.2 (depth - 1) (-b) (-a) none false).1 then some x.1.move
              else bm)
             (if bs < -(alpha_beta x.2 (depth - 1) (-b) (-a) none false).1 then
                -(alpha_beta x.2 (depth - 1) (-b) (-a) none false).1
              else bs) false).1
         else (abLoop rest depth a b
             (if bs < -(alpha_beta x.2 (depth - 1) (-b) (-a) none false).1 then some x.1.move
              else bm)
             (if bs < -(alpha_beta x.2 (depth - 1) (-b) (-a) none false).1 then
                -(alpha_beta x.2 (depth - 1) (-b) (-a) none false).1
              else bs) false).1) := by
      rw [abLoop]
      by_cases h1 : b ≤ -(alpha_beta x.2 (depth - 1) (-b) (-a) none false).1
      · simp [h1]
      · by_cases h2 : a < -(alpha_beta x.2 (depth - 1) (-b) (-a) none false).1
        · simp [h1, h2]
        · simp [h1, h2]
    have hveq : nvLoop (x :: rest) depth a =
        nvLoop rest depth (max a (-(negamax_value x.2 (depth - 1)))) := by
      rw [nvLoop]
    rw [heq, hveq]
    set s := -(alpha_beta x.2 (depth - 1) (-b) (-a) none false).1 with hs
    set sv := -(negamax_value x.2 (depth - 1)) with hsv
    by_cases h1 : b ≤ s
    · have hbv : b ≤ sv := by
        have := hx1 (by omega)
        omega
      simp only [h1, if_true]
      refine ⟨by omega, fun h => absurd h (by omega), fun _ => ?_⟩
      have := nvLoop_le_init rest depth (max a sv)
      have : b ≤ max a sv := le_trans hbv (le_max_right a sv)
      omega
    · by_cases h2 : a < s
      · have hse : s = sv := by
          have := hx3 (by omega) (by omega)
          omega
        have hmax : max a sv = s := by omega
        simp only [h1, if_false, h2, if_true]
        obtain ⟨g1, g2, g3⟩ := hrest s b
          (if bs < s then s else bs) (if bs < s then some x.1.move else bm) (by omega)
        rw [hmax]
        exact ⟨by omega, g2, g3⟩
      · have hsva : sv ≤ a := by
          have := hx2 (by omega)
          omega
        have hmax : max a sv = a := by omega
        simp only [h1, if_false, h2, if_false]
        obtain ⟨g1, g2, g3⟩ := hrest a b
          (if bs < s then s else bs) (if bs < s then some x.1.move else bm) hab
        rw [hmax]
        exact ⟨g1, g2, g3⟩

theorem alpha_beta_trichotomy : ∀ (t : GameTree) (depth a b : Int) (pv : Option Nat),
    a < b →
    (((alpha_beta t depth a b pv false).1 ≤ a → negamax_value t depth ≤ a) ∧
     (b ≤ (alpha_beta t depth a b pv false).1 → b ≤ negamax_value t depth) ∧
     (a < (alpha_beta t depth a b pv false).1 → (alpha_beta t depth a b pv false).1 < b →
      (alpha_beta t depth a b pv false).1 = negamax_value t depth)) := by
  intro t
  induction t using GameTree.inductionTree with
  | h d cs ih =>
    intro depth a b pv hab
    by_cases h1 : d.isCheckmate
    · have hq : (alpha_beta (.node d cs) depth a b pv false).1 = -30000 + (100 - depth) := by
        rw [alpha_beta]
        simp [h1]
      have hv : negamax_value (.node d cs) depth = -30000 + (100 - depth) := by
        rw [negamax_value.eq_def]
        simp [h1]
      rw [hq, hv]
      exact ⟨fun h => h, fun h => h, fun _ _ => rfl⟩
    · by_cases h2 : (d.isStalemate || d.isInsufficientMaterial || d.canClaimDraw : Bool)
      · have hq : (alpha_beta (.node d cs) depth a b pv false).1 = 0 := by
          rw [alpha_beta]
          simp [h1, h2]
        have hv : negamax_value (.node d cs) depth = 0 := by
          rw [negamax_value.eq_def]
          simp [h1, h2]
        rw [hq, hv]
        exact ⟨fun h => h, fun h => h, fun _ _ => rfl⟩
      · by_cases h3 : depth ≤ 0
        · have hq : (alpha_beta (.node d cs) depth a b pv false).1 =
              quiescence_search (.node d cs) a b 0 false := by
            rw [alpha_beta]
            simp [h1, h2, h3]
          have hv : negamax_value (.node d cs) depth = qval (.node d cs) 0 := by
            rw [negamax_value.eq_def]
            simp [h1, h2, h3]
          rw [hq, hv]
          exact quiescence_trichotomy (.node d cs) 0 a b hab
        · cases cs with
          | nil =>
            have hq : (alpha_beta (.node d []) depth a b pv false).1 =
                (if d.isCheck then -30000 + (100 - depth) else 0) := by
              rw [alpha_beta]
              by_cases h5 : d.isCheck <;> simp [h1, h2, h3, h5]
            have hv : negamax_value (.node d []) depth =
                (if d.isCheck then -30000 + (100 - depth) else 0) := by
              rw [negamax_value]
              simp [h1, h2, h3]
            rw [hq, hv]
            exact ⟨fun h => h, fun h => h, fun _ _ => rfl⟩
          | cons c rest =>
            have hq : (alpha_beta (.node d (c :: rest)) depth a b pv false).1 =
                (abLoop (order_moves (c :: rest) pv) depth a b none (-999999) false).1 := by
              rw [alpha_beta]
              simp [h1, h2, h3]
            have hv : negamax_value (.node d (c :: rest)) depth =
                nvLoop rest depth (-(negamax_value c.2 (depth - 1))) := by
              rw [negamax_value]
              simp [h1, h2, h3]
            have hch : ∀ x ∈ order_moves (c :: rest) pv, ∀ (a' b' : Int), a' < b' →
                (((alpha_beta x.2 (depth - 1) a' b' none false).1 ≤ a' →
                    negamax_value x.2 (depth - 1) ≤ a') ∧
                 (b' ≤ (alpha_beta x.2 (depth - 1) a' b' none false).1 →
                    b' ≤ negamax_value x.2 (depth - 1)) ∧
                 (a' < (alpha_beta x.2 (depth - 1) a' b' none false).1 →
                  (alpha_beta x.2 (depth - 1) a' b' none false).1 < b' →
                  (alpha_beta x.2 (depth - 1) a' b' none false).1
                    = negamax_value x.2 (depth - 1))) := by
              intro x hx a' b' hab'
              exact ih x (mem_of_mem_order_moves hx) (depth - 1) a' b' none hab'
            obtain ⟨g1, g2, g3⟩ := abLoop_trichotomy depth (order_moves (c :: rest) pv) hch
              a b (-999999) none hab
            have hperm : nvLoop (order_moves (c :: rest) pv) depth a =
                nvLoop (c :: rest) depth a :=
              nvLoop_perm (List.perm_insertionSort _ _) depth a
            have hW : nvLoop (c :: rest) depth a =
                max (nvLoop rest depth (-(negamax_value c.2 (depth - 1)))) a := by
              rw [nvLoop]
              have hm : max a (-(negamax_value c.2 (depth - 1))) =
                  max (-(negamax_value c.2 (depth - 1))) a := by omega
              rw [hm]
              exact nvLoop_max rest depth _ a
            rw [hperm, hW] at g2 g3
            rw [hq, hv]
            refine ⟨fun h => ?_, fun h => ?_, fun h h' => ?_⟩
            · have := g2 (by omega)
              omega
            · have := g3 h
              omega
            · have := g2 h'
              omega

/-- C1 as stated fails on the code: the search is fail-hard, so a finite
window that does not contain the true score clamps the returned score to
the window.  On a one-move position whose unbounded-window (negamax) score
is 100, the window (0, 1) returns 1, not 100. -/
theorem claim_C1_counterexample :
    ¬ ((alpha_beta
          (.node ⟨false, false, false, false, false, true, 0⟩
            [(⟨4, false, 0, 0, false⟩,
              .node ⟨false, false, false, false, false, false, -100⟩ [])])
          1 0 1 none false).1 =
        negamax_value
          (.node ⟨false, false, false, false, false, true, 0⟩
            [(⟨4, false, 0, 0, false⟩,
              .node ⟨false, false, false, false, false, false, -100⟩ [])])
          1) := by
  have hL : (alpha_beta
      (.node ⟨false, false, false, false, false, true, 0⟩
        [(⟨4, false, 0, 0, false⟩,
          .node ⟨false, false, false, false, false, false, -100⟩ [])])
      1 0 1 none false).1 = 1 := by
    simp [alpha_beta, abLoop, quiescence_search, evaluate, tacticalFilter, order_moves,
      List.insertionSort, List.orderedInsert, moveScore]
  have hR : negamax_value
      (.node ⟨false, false, false, false, false, true, 0⟩
        [(⟨4, false, 0, 0, false⟩,
          .node ⟨false, false, false, false, false, false, -100⟩ [])])
      1 = 100 := by
    simp [negamax_value, nvLoop, qval, qvalLoop, evaluate, tacticalFilter, order_moves,
      List.insertionSort, List.orderedInsert, moveScore]
  rw [hL, hR]
  decide

/-- C1 amended: pruning never changes the returned score for any window
that strictly contains the unbounded-window (negamax) score of the
position at that depth: if alpha is below that score and beta above it,
the alpha-beta search returns exactly that score, for every principal-move
hint.  Windows that do not contain the score may clamp the result to the
window boundary (fail-hard), as the counterexample shows. -/
theorem claim_C1_amended (t : GameTree) (depth a b : Int) (pv : Option Nat)
    (h1 : a < negamax_value t depth) (h2 : negamax_value t depth < b) :
    (alpha_beta t depth a b pv false).1 = negamax_value t depth := by
  have hab : a < b := lt_trans h1 h2
  obtain ⟨g1, g2, g3⟩ := alpha_beta_trichotomy t depth a b pv hab
  by_cases hr1 : (alpha_beta t depth a b pv false).1 ≤ a
  · exact absurd (g1 hr1) (by omega)
  · by_cases hr2 : b ≤ (alpha_beta t depth a b pv false).1
    · exact absurd (g2 hr2) (by omega)
    · exact g3 (by omega) (by omega)

/-- Witness for C1 (amended) at a concrete input: the same one-move
position with negamax score 100 searched with the window (0, 200) returns
exactly 100. -/
theorem claim_C1_witness :
    negamax_value
      (.node ⟨false, false, false, false, false, true, 0⟩
        [(⟨4, false, 0, 0, false⟩,
          .node ⟨false, false, false, false, false, false, -100⟩ [])]) 1 = 100 ∧
    (alpha_beta
      (.node ⟨false, false, false, false, false, true, 0⟩
        [(⟨4, false, 0, 0, false⟩,
          .node ⟨false, false, false, false, false, false, -100⟩ [])])
      1 0 200 none false).1 =
    negamax_value
      (.node ⟨false, false, false, false, false, true, 0⟩
        [(⟨4, false, 0, 0, false⟩,
          .node ⟨false, false, false, false, false, false, -100⟩ [])]) 1 := by
  have hR : negamax_value
      (.node ⟨false, false, false, false, false, true, 0⟩
        [(⟨4, false, 0, 0, false⟩,
          .node ⟨false, false, false, false, false, false, -100⟩ [])])
      1 = 100 := by
    simp [negamax_value, nvLoop, qval, qvalLoop, evaluate, tacticalFilter, order_moves,
      List.insertionSort, List.orderedInsert, moveScore]
  refine ⟨hR, claim_C1_amended _ 1 0 200 none ?_ ?_⟩
  · rw [hR]
    decide
  · rw [hR]
    decide
